import Mathlib

/-!
Verification of the streak / leaderboard logic of the Get-Fit repository.

The leaderboard logic is embedded from
`src/frontend/src/components/FriendsTab.js` (the `sort` / `slice` pipeline at
lines 272–275), the calendar day-bucketing from
`src/frontend/src/components/StreakCalendar.js` (`hasActivityOnDate`,
`getActivityIcon`), and the calorie estimator from
`src/frontend/src/components/ActivityLogger.js` (`getEstimatedCalories`).
The streak-computation engine itself runs in a backend that is not part of
the source tree; those operations are modelled from the specification and
marked as such.
-/

namespace GetFit

/-- A friend entry as served by `/api/friends` and consumed by `FriendsTab`:
`id`, `name`, `current_streak`, `longest_streak` (streaks are non-negative
integers). -/
structure Friend where
  id : Nat
  name : String
  current_streak : Nat
  longest_streak : Nat
deriving DecidableEq, Repr

/-- The comparator passed to `Array.prototype.sort` in `FriendsTab.js:273`:
`(a, b) => b.current_streak - a.current_streak`. -/
def streakCompare (a b : Friend) : Int :=
  (b.current_streak : Int) - (a.current_streak : Int)

/-- One insertion step of a stable comparator sort: `x` is placed before the
first element `y` it strictly precedes (`cmp x y < 0`); on ties it stays
after, preserving input order.  Models the ECMA-262 `Array.prototype.sort`
contract (stable since ES2019) for a consistent comparator. -/
def jsInsert {α : Type} (cmp : α → α → Int) (x : α) : List α → List α
  | [] => [x]
  | y :: ys => if cmp x y < 0 then x :: y :: ys else y :: jsInsert cmp x ys

/-- Stable sort by a JS comparator: fold the input left-to-right, inserting
each element into the already-sorted prefix.  Later equal elements land after
earlier ones, so the result is the stable order mandated by ECMA-262. -/
def jsSort {α : Type} (cmp : α → α → Int) (l : List α) : List α :=
  l.foldl (fun acc x => jsInsert cmp x acc) []

/-- The sorted friends list, `friends.sort((a, b) => b.current_streak -
a.current_streak)` from `FriendsTab.js:272-273`.  JS `sort` both returns this list and reorders the
`friends` array in place to it. -/
def sortFriends (l : List Friend) : List Friend :=
  jsSort streakCompare l

/-- The rendered leaderboard, `FriendsTab.js:272-275`: sorted friends, then
`.slice(0, 3)`. -/
def leaderboardTop (l : List Friend) : List Friend :=
  (sortFriends l).take 3

/-- The contents of the `friends` state array after the leaderboard render:
`Array.prototype.sort` mutates the array in place, so it holds the sorted
order. -/
def friendsAfterRank (l : List Friend) : List Friend :=
  sortFriends l

/-- The ordering the comparator induces: `a` may come before `b` when `a`'s
current streak is at least `b`'s. -/
def streakGE (a b : Friend) : Prop :=
  b.current_streak ≤ a.current_streak

instance : DecidableRel streakGE := fun a b =>
  inferInstanceAs (Decidable (b.current_streak ≤ a.current_streak))

theorem jsInsert_perm {α : Type} (cmp : α → α → Int) (x : α) :
    ∀ l : List α, List.Perm (jsInsert cmp x l) (x :: l) := by
  intro l
  induction l with
  | nil => simp [jsInsert]
  | cons y ys ih =>
      by_cases h : cmp x y < 0
      · simp [jsInsert, h]
      · simp only [jsInsert, if_neg h]
        exact (ih.cons y).trans (List.Perm.swap x y ys)

theorem jsSort_foldl_perm {α : Type} (cmp : α → α → Int) :
    ∀ (l acc : List α),
      List.Perm (l.foldl (fun a x => jsInsert cmp x a) acc) (acc ++ l) := by
  intro l
  induction l with
  | nil => intro acc; simp
  | cons x xs ih =>
      intro acc
      have h1 := ih (jsInsert cmp x acc)
      have h2 : List.Perm (jsInsert cmp x acc ++ xs) ((x :: acc) ++ xs) :=
        (jsInsert_perm cmp x acc).append_right xs
      have h3 : List.Perm ((x :: acc) ++ xs) (acc ++ x :: xs) := by
        simpa using (@List.perm_middle _ x acc xs).symm
      exact (h1.trans h2).trans h3

theorem jsSort_perm {α : Type} (cmp : α → α → Int) (l : List α) :
    List.Perm (jsSort cmp l) l := by
  simpa [jsSort] using jsSort_foldl_perm cmp l []

theorem jsSort_length {α : Type} (cmp : α → α → Int) (l : List α) :
    (jsSort cmp l).length = l.length :=
  (jsSort_perm cmp l).length_eq

theorem streakCompare_lt (x y : Friend) :
    streakCompare x y < 0 ↔ y.current_streak < x.current_streak := by
  simp only [streakCompare]
  omega

theorem mem_jsInsert (x z : Friend) (l : List Friend) :
    z ∈ jsInsert streakCompare x l ↔ z = x ∨ z ∈ l := by
  have h := (jsInsert_perm streakCompare x l).mem_iff (a := z)
  simpa using h

theorem jsInsert_pairwise (x : Friend) (l : List Friend)
    (hl : List.Pairwise streakGE l) :
    List.Pairwise streakGE (jsInsert streakCompare x l) := by
  induction l with
  | nil => simp [jsInsert, List.Pairwise]
  | cons y ys ih =>
      rcases hl with _ | ⟨hy, hys⟩
      simp only [jsInsert]
      by_cases h : streakCompare x y < 0
      · rw [if_pos h]
        rw [streakCompare_lt] at h
        refine List.Pairwise.cons ?_ (List.Pairwise.cons hy hys)
        intro z hz
        rcases List.mem_cons.mp hz with rfl | hz
        · exact le_of_lt h
        · exact le_trans (hy z hz) (le_of_lt h)
      · rw [if_neg h]
        rw [streakCompare_lt] at h
        push_neg at h
        refine List.Pairwise.cons ?_ (ih hys)
        intro z hz
        rcases (mem_jsInsert x z ys).mp hz with rfl | hz
        · exact h
        · exact hy z hz

theorem jsSort_foldl_pairwise :
    ∀ (l acc : List Friend), List.Pairwise streakGE acc →
      List.Pairwise streakGE (l.foldl (fun a x => jsInsert streakCompare x a) acc) := by
  intro l
  induction l with
  | nil => intro acc h; simpa using h
  | cons x xs ih =>
      intro acc h
      exact ih (jsInsert streakCompare x acc) (jsInsert_pairwise x acc h)

theorem sortFriends_pairwise (l : List Friend) :
    List.Pairwise streakGE (sortFriends l) :=
  jsSort_foldl_pairwise l [] List.Pairwise.nil

theorem sortFriends_perm (l : List Friend) :
    List.Perm (sortFriends l) l :=
  jsSort_perm streakCompare l

/-- Predicate selecting the friends whose `current_streak` equals `c`. -/
def streakIs (c : Nat) (f : Friend) : Bool :=
  f.current_streak == c

theorem streakIs_true {c : Nat} {f : Friend} :
    streakIs c f = true ↔ f.current_streak = c := by
  simp [streakIs]

theorem filter_jsInsert (c : Nat) (x : Friend) :
    ∀ l : List Friend, List.Pairwise streakGE l →
      (jsInsert streakCompare x l).filter (streakIs c)
        = if streakIs c x then l.filter (streakIs c) ++ [x]
          else l.filter (streakIs c) := by
  intro l
  induction l with
  | nil =>
      intro _
      by_cases hx : streakIs c x
      · simp [jsInsert, hx]
      · simp [jsInsert, hx]
  | cons y ys ih =>
      intro hl
      rcases hl with _ | ⟨hy, hys⟩
      simp only [jsInsert]
      by_cases h : streakCompare x y < 0
      · rw [if_pos h]
        rw [streakCompare_lt] at h
        by_cases hx : streakIs c x
        · have hc : x.current_streak = c := streakIs_true.mp hx
        -- everything in `y :: ys` has a streak strictly below `c`,
        -- so the filtered tail is empty on both sides
          have hnil : (y :: ys).filter (streakIs c) = [] := by
            refine List.filter_eq_nil_iff.mpr ?_
            intro z hz
            rcases List.mem_cons.mp hz with rfl | hz
            · intro hzc
              have := streakIs_true.mp hzc
              omega
            · intro hzc
              have h1 := streakIs_true.mp hzc
              have h2 := hy z hz
              simp only [streakGE] at h2
              omega
          rw [if_pos hx, hnil]
          simp [List.filter_cons, hx, hnil]
        · rw [if_neg hx]
          simp [List.filter_cons, hx]
      · rw [if_neg h]
        have htail := ih hys
        by_cases hx : streakIs c x
        · rw [if_pos hx] at htail ⊢
          by_cases hyc : streakIs c y
          · simp [List.filter_cons, hyc, htail]
          · simp [List.filter_cons, hyc, htail]
        · rw [if_neg hx] at htail ⊢
          by_cases hyc : streakIs c y
          · simp [List.filter_cons, hyc, htail]
          · simp [List.filter_cons, hyc, htail]

theorem filter_jsSort_foldl (c : Nat) :
    ∀ (l acc : List Friend), List.Pairwise streakGE acc →
      (l.foldl (fun a x => jsInsert streakCompare x a) acc).filter (streakIs c)
        = acc.filter (streakIs c) ++ l.filter (streakIs c) := by
  intro l
  induction l with
  | nil => intro acc _; simp
  | cons x xs ih =>
      intro acc hacc
      have hstep := ih (jsInsert streakCompare x acc) (jsInsert_pairwise x acc hacc)
      simp only [List.foldl_cons] at hstep ⊢
      rw [hstep, filter_jsInsert c x acc hacc]
      by_cases hx : streakIs c x
      · simp [List.filter_cons, hx]
      · simp [List.filter_cons, hx]

/-- Stability of the leaderboard sort: for every streak value `c`, the
entries with that streak appear in the sorted list exactly in input order. -/
theorem sortFriends_stable (l : List Friend) (c : Nat) :
    (sortFriends l).filter (streakIs c) = l.filter (streakIs c) := by
  simpa using filter_jsSort_foldl c l [] List.Pairwise.nil

/-- A list sorted by non-increasing `current_streak` is uniquely determined
by its per-streak filters: this is the uniqueness of a stable sort. -/
theorem sorted_stable_unique :
    ∀ l₁ l₂ : List Friend, List.Pairwise streakGE l₁ → List.Pairwise streakGE l₂ →
      (∀ c, l₁.filter (streakIs c) = l₂.filter (streakIs c)) → l₁ = l₂ := by
  intro l₁
  induction l₁ with
  | nil =>
      intro l₂ _ _ hf
      cases l₂ with
      | nil => rfl
      | cons y t2 =>
          exfalso
          have h := hf y.current_streak
          simp [List.filter_cons, streakIs] at h
  | cons x t1 ih =>
      intro l₂ h1 h2 hf
      cases l₂ with
      | nil =>
          exfalso
          have h := hf x.current_streak
          simp [List.filter_cons, streakIs] at h
      | cons y t2 =>
          rcases h1 with _ | ⟨hx1, ht1⟩
          rcases h2 with _ | ⟨hy2, ht2⟩
          have hxy : x = y := by
            by_cases hcs : x.current_streak = y.current_streak
            · have h := hf x.current_streak
              have hpx : streakIs x.current_streak x = true := streakIs_true.mpr rfl
              have hpy : streakIs x.current_streak y = true := streakIs_true.mpr hcs.symm
              rw [List.filter_cons_of_pos hpx, List.filter_cons_of_pos hpy] at h
              exact (List.cons.injEq _ _ _ _ ▸ h).1
            · exfalso
              have hA := hf x.current_streak
              have hpx : streakIs x.current_streak x = true := streakIs_true.mpr rfl
              have hpy : ¬ streakIs x.current_streak y = true := by
                intro hc; exact hcs (streakIs_true.mp hc).symm
              rw [List.filter_cons_of_pos hpx, List.filter_cons_of_neg hpy] at hA
              have hxmem : x ∈ t2 := by
                have : x ∈ t2.filter (streakIs x.current_streak) := by
                  rw [← hA]; exact List.mem_cons_self x _
                exact List.mem_of_mem_filter this
              have hle1 : x.current_streak ≤ y.current_streak := hy2 x hxmem
              have hB := hf y.current_streak
              have hqy : streakIs y.current_streak y = true := streakIs_true.mpr rfl
              have hqx : ¬ streakIs y.current_streak x = true := by
                intro hc; exact hcs (streakIs_true.mp hc)
              rw [List.filter_cons_of_pos hqy, List.filter_cons_of_neg hqx] at hB
              have hymem : y ∈ t1 := by
                have : y ∈ t1.filter (streakIs y.current_streak) := by
                  rw [hB]; exact List.mem_cons_self y _
                exact List.mem_of_mem_filter this
              have hle2 : y.current_streak ≤ x.current_streak := hx1 y hymem
              exact hcs (le_antisymm hle1 hle2)
          subst hxy
          have htails : ∀ c, t1.filter (streakIs c) = t2.filter (streakIs c) := by
            intro c
            have h := hf c
            by_cases hc : streakIs c x
            · rw [List.filter_cons_of_pos hc, List.filter_cons_of_pos hc] at h
              exact (List.cons.injEq _ _ _ _ ▸ h).2
            · rw [List.filter_cons_of_neg hc, List.filter_cons_of_neg hc] at h
              exact h
          rw [ih t2 ht1 ht2 htails]

/-- C1 (counterexample): two friends both with `current_streak = 5`, the
first with `longest_streak = 8`, the second with `longest_streak = 10`.
The claim demands that the `longest_streak = 10` friend rank first; the
code's comparator ignores `longest_streak`, and the stable sort keeps the
`longest_streak = 8` friend (first in the input) at the top. -/
theorem C1_counterexample :
    (Friend.mk 1 "a" 5 8).current_streak = (Friend.mk 2 "b" 5 10).current_streak
    ∧ (leaderboardTop [Friend.mk 1 "a" 5 8, Friend.mk 2 "b" 5 10]).head?
        = some (Friend.mk 1 "a" 5 8)
    ∧ (Friend.mk 1 "a" 5 8).longest_streak ≠ 10 := by
  refine ⟨rfl, ?_, by decide⟩
  rfl

/-- C1 (amended): the comparator at `FriendsTab.js:273` reads only
`current_streak`, so entries with equal `current_streak` are ordered by
their position in the input list (the sort is stable); `longest_streak`
and `user_id` play no role.  Formally: for every streak value `c`, the
entries with `current_streak = c` appear in the sorted leaderboard exactly
in input order. -/
theorem C1_equal_streaks_keep_input_order (l : List Friend) (c : Nat) :
    (sortFriends l).filter (streakIs c) = l.filter (streakIs c) :=
  sortFriends_stable l c

/-- C4 (counterexample): `friends.sort(...)` at `FriendsTab.js:272-273`
sorts the React state array in place, so after producing the leaderboard
the input collection is no longer in its original order. -/
theorem C4_counterexample :
    friendsAfterRank [Friend.mk 1 "a" 1 1, Friend.mk 2 "b" 2 2]
        = [Friend.mk 2 "b" 2 2, Friend.mk 1 "a" 1 1]
    ∧ friendsAfterRank [Friend.mk 1 "a" 1 1, Friend.mk 2 "b" 2 2]
        ≠ [Friend.mk 1 "a" 1 1, Friend.mk 2 "b" 2 2] := by
  refine ⟨rfl, ?_⟩
  intro h
  have := congrArg (fun l => (l.head?.map Friend.id)) h
  simp [friendsAfterRank, sortFriends, jsSort, jsInsert, streakCompare] at this

/-- C4 (amended): ranking writes no `StreakState` — the array after the
in-place sort is a permutation of the input, every entry kept intact with
its `current_streak` and `longest_streak` values unchanged — but it does
reorder the input array rather than leave it in its original order. -/
theorem C4_rank_preserves_entries (l : List Friend) :
    List.Perm (friendsAfterRank l) l :=
  sortFriends_perm l

/-- C5: in the rendered leaderboard every entry's `current_streak` is at
least the `current_streak` of the entry that follows it (descending
order). -/
theorem C5_leaderboard_sorted_descending (l : List Friend) :
    List.Chain' (fun a b => b.current_streak ≤ a.current_streak) (leaderboardTop l) := by
  have hp : List.Pairwise streakGE (sortFriends l) := sortFriends_pairwise l
  have hs : List.Sublist (leaderboardTop l) (sortFriends l) := by
    simpa [leaderboardTop] using List.take_sublist 3 (sortFriends l)
  exact (hp.sublist hs).chain'

/-- C6: the leaderboard ordering is deterministic — any output that is a
descending-sorted, stable rearrangement of the input (which is exactly what
ECMA-262 guarantees for any run of `Array.prototype.sort` with this
comparator) is equal to `sortFriends`; hence two runs on identical input
produce identical orderings, tied entries included. -/
theorem C6_leaderboard_deterministic (l out : List Friend)
    (hsorted : List.Pairwise streakGE out)
    (hstable : ∀ c, out.filter (streakIs c) = l.filter (streakIs c)) :
    out = sortFriends l :=
  sorted_stable_unique out (sortFriends l) hsorted (sortFriends_pairwise l)
    (fun c => (hstable c).trans (sortFriends_stable l c).symm)

theorem C6_witness :
    List.Pairwise streakGE [Friend.mk 1 "a" 5 8, Friend.mk 2 "b" 5 10]
    ∧ ([Friend.mk 1 "a" 5 8, Friend.mk 2 "b" 5 10] : List Friend)
        = sortFriends [Friend.mk 1 "a" 5 8, Friend.mk 2 "b" 5 10] :=
  ⟨by decide, C6_leaderboard_deterministic _ _ (by decide) (fun c => rfl)⟩

/-- C7: the leaderboard never shows more entries than there are friends
(`.slice(0, 3)` of a permutation of the input). -/
theorem C7_leaderboard_at_most_n (l : List Friend) :
    (leaderboardTop l).length ≤ l.length := by
  have h1 : (leaderboardTop l).length ≤ (sortFriends l).length :=
    (List.take_sublist 3 (sortFriends l)).length_le
  exact h1.trans (le_of_eq (jsSort_length streakCompare l))

/-! ## Streak Calculator

The streak engine runs behind `/api/streak`; its code is not part of the
source tree (the frontend only fetches its results), so it is modelled from
the specification, §4.2.  Calendar dates are day numbers (`Int`), one unit
per calendar day. -/

/-- Result of a full streak recomputation: `{ current_streak, longest_streak }`. -/
structure StreakResult where
  current : Nat
  longest : Nat
deriving DecidableEq, Repr

/-- Modelled from the spec: one step of the §4.2 ascending scan over active
days.  State is `(last date seen, running consecutive-day counter, maximum
counter seen)`; the counter increments when the next date is exactly one day
after the previous and resets to 1 on any gap or at sequence start. -/
def streakStep (acc : Option Int × Nat × Nat) (d : Int) : Option Int × Nat × Nat :=
  match acc with
  | (none, _, lg) => (some d, 1, max lg 1)
  | (some prev, run, lg) =>
      if d = prev + 1 then (some d, run + 1, max lg (run + 1))
      else (some d, 1, max lg 1)

/-- Modelled from the spec: the single ascending scan of §4.2. -/
def computeFold (days : List Int) : Option Int × Nat × Nat :=
  days.foldl streakStep (none, 0, 0)

/-- Modelled from the spec: the Streak Calculator's full recomputation path,
`compute(activeDays, today)`.  `current_streak` is the trailing run counter
when the last active day is `today` or `today - 1` (grace period) and 0
otherwise; empty input yields `{0, 0}`. -/
def compute (days : List Int) (today : Int) : StreakResult :=
  match computeFold days with
  | (none, _, _) => ⟨0, 0⟩
  | (some last, run, lg) =>
      ⟨if last = today ∨ last = today - 1 then run else 0, lg⟩

/-- Length of the maximal run of consecutive descending days at the front of
a list: `descRun [5, 4, 3, 1] = 3`. -/
def descRun : List Int → Nat
  | [] => 0
  | [_] => 1
  | x :: y :: t => if x = y + 1 then descRun (y :: t) + 1 else 1

/-- The length of the trailing consecutive run of `days` (read ascending):
the specification's "trailing consecutive run". -/
def trailingRun (days : List Int) : Nat :=
  descRun days.reverse

theorem computeFold_append (l : List Int) (d : Int) :
    computeFold (l ++ [d]) = streakStep (computeFold l) d := by
  simp [computeFold, List.foldl_append]

theorem trailingRun_concat (a : Int) (t : List Int) (d : Int) :
    trailingRun ((a :: t) ++ [d])
      = if (a :: t).getLast? = some (d - 1) then trailingRun (a :: t) + 1 else 1 := by
  obtain ⟨z, r, hrev⟩ : ∃ z r, (a :: t).reverse = z :: r := by
    cases hrl : (a :: t).reverse with
    | nil =>
        exact absurd (congrArg List.length hrl) (by simp)
    | cons z r => exact ⟨z, r, rfl⟩
  have hlast : (a :: t).getLast? = some z := by
    rw [← List.head?_reverse, hrev]; rfl
  have hrw : trailingRun ((a :: t) ++ [d]) = descRun (d :: z :: r) := by
    have hr2 : ((a :: t) ++ [d]).reverse = d :: (a :: t).reverse := by simp
    rw [trailingRun, hr2, hrev]
  rw [hrw, hlast, descRun]
  have htr : trailingRun (a :: t) = descRun (z :: r) := by
    simp [trailingRun, hrev]
  by_cases h : d = z + 1
  · rw [if_pos h, if_pos (by rw [h]; ring_nf), htr]
  · rw [if_neg h, if_neg (by intro hc; apply h; have := (Option.some.injEq _ _ ▸ hc); omega)]

theorem computeFold_spec (l : List Int) :
    (computeFold l).1 = l.getLast? ∧ (computeFold l).2.1 = trailingRun l := by
  induction l using List.reverseRecOn with
  | nil => simp [computeFold, trailingRun, descRun]
  | append_singleton l d ih =>
      obtain ⟨h1, h2⟩ := ih
      rw [computeFold_append]
      cases l with
      | nil =>
          simp [computeFold, streakStep, trailingRun, descRun]
      | cons a t =>
          rcases hcf : computeFold (a :: t) with ⟨st, run, lg⟩
          rw [hcf] at h1 h2
          simp only at h1 h2
          obtain ⟨z, hz⟩ : ∃ z, (a :: t).getLast? = some z := by
            cases hl : (a :: t).getLast? with
            | none => exact absurd (List.getLast?_eq_none_iff.mp hl) (by simp)
            | some z => exact ⟨z, rfl⟩
          rw [hz] at h1
          subst h1
          rw [trailingRun_concat, hz, List.getLast?_concat]
          constructor
          · simp [streakStep]
            by_cases h : d = z + 1 <;> simp [h]
          · simp only [streakStep]
            by_cases h : d = z + 1
            · rw [if_pos h, if_pos (by simp only [Option.some.injEq]; omega)]
              simp [h2]
            · rw [if_neg h, if_neg (by simp only [Option.some.injEq]; omega)]

theorem computeFold_longest_inv (l : List Int) :
    (computeFold l).2.1 ≤ (computeFold l).2.2
    ∧ ((computeFold l).1 ≠ none → 1 ≤ (computeFold l).2.2) := by
  have main : ∀ (l : List Int) (acc : Option Int × Nat × Nat),
      acc.2.1 ≤ acc.2.2 → (acc.1 ≠ none → 1 ≤ acc.2.2) →
      (l.foldl streakStep acc).2.1 ≤ (l.foldl streakStep acc).2.2
      ∧ ((l.foldl streakStep acc).1 ≠ none → 1 ≤ (l.foldl streakStep acc).2.2) := by
    intro l
    induction l with
    | nil => intro acc h1 h2; exact ⟨h1, h2⟩
    | cons d t ih =>
        intro acc h1 h2
        rcases acc with ⟨st, run, lg⟩
        apply ih
        · cases st with
          | none => simp [streakStep]
          | some prev =>
              simp only [streakStep]
              by_cases h : d = prev + 1 <;> simp [h]
        · cases st with
          | none => simp [streakStep]
          | some prev =>
              simp only [streakStep]
              by_cases h : d = prev + 1 <;> simp [h]
  exact main l (none, 0, 0) (le_refl 0) (by simp)

/-- Modelled from the spec: the per-user `StreakState` aggregate (§3),
restricted to the fields the streak invariant concerns; `user_id` and
`updated_at` are inert for these claims. -/
structure StreakState where
  current_streak : Nat
  longest_streak : Nat
  last_active_date : Option Int
deriving DecidableEq, Repr

/-- Modelled from the spec: the Streak Calculator's incremental path
`applyNewActivity(state, newDay, today)` (§4.2).  `today` does not appear in
the incremental rules.  A `newDay` earlier than `last_active_date` is
invalid for this path — the spec mandates fallback to full recomputation —
so the state is returned unchanged and the caller recomputes. -/
def applyNewActivity (s : StreakState) (newDay _today : Int) : StreakState :=
  match s.last_active_date with
  | none => ⟨1, max s.longest_streak 1, some newDay⟩
  | some last =>
      if newDay = last then s
      else if newDay = last + 1 then
        ⟨s.current_streak + 1, max s.longest_streak (s.current_streak + 1), some newDay⟩
      else if last + 1 < newDay then
        ⟨1, s.longest_streak, some newDay⟩
      else s

/-- Modelled from the spec: the state a full recomputation pass installs in
the Streak State Cache — `compute` over the user's active days, with
`last_active_date` the last active day. -/
def stateOfRecompute (days : List Int) (today : Int) : StreakState :=
  ⟨(compute days today).current, (compute days today).longest, days.getLast?⟩

/-- The `StreakState`s the system can produce: the lazily-created zeroed
state, anything the incremental update yields from a producible state, and
anything a full recomputation pass installs. -/
inductive ReachableState : StreakState → Prop
  | init : ReachableState ⟨0, 0, none⟩
  | incremental {s : StreakState} (newDay today : Int) :
      ReachableState s → ReachableState (applyNewActivity s newDay today)
  | recomputed (days : List Int) (today : Int) :
      ReachableState (stateOfRecompute days today)

/-- The §3 invariant, strengthened with the auxiliary fact that any state
with a recorded last active day has seen at least one activity. -/
def StreakInv (s : StreakState) : Prop :=
  s.current_streak ≤ s.longest_streak
  ∧ (s.last_active_date ≠ none → 1 ≤ s.longest_streak)

theorem compute_current_le_longest (days : List Int) (today : Int) :
    (compute days today).current ≤ (compute days today).longest := by
  have hi := computeFold_longest_inv days
  rcases h : computeFold days with ⟨st, run, lg⟩
  rw [h] at hi
  simp only at hi
  cases st with
  | none => simp [compute, h]
  | some last =>
      simp only [compute, h]
      by_cases hc : last = today ∨ last = today - 1
      · rw [if_pos hc]; exact hi.1
      · rw [if_neg hc]; exact Nat.zero_le _

theorem compute_longest_pos (days : List Int) (today : Int)
    (h : days.getLast? ≠ none) : 1 ≤ (compute days today).longest := by
  have hi := computeFold_longest_inv days
  have hs := computeFold_spec days
  rcases hf : computeFold days with ⟨st, run, lg⟩
  rw [hf] at hi hs
  simp only at hi hs
  cases st with
  | none => exact absurd hs.1.symm h
  | some last =>
      have : 1 ≤ lg := hi.2 (by simp)
      simp only [compute, hf]
      exact this

theorem applyNewActivity_inv (s : StreakState) (newDay today : Int)
    (h : StreakInv s) : StreakInv (applyNewActivity s newDay today) := by
  obtain ⟨h1, h2⟩ := h
  cases hl : s.last_active_date with
  | none =>
      simp only [applyNewActivity, hl]
      exact ⟨le_max_right _ _, fun _ => le_max_right _ _⟩
  | some last =>
      simp only [applyNewActivity, hl]
      by_cases he : newDay = last
      · rw [if_pos he]; exact ⟨h1, h2⟩
      · rw [if_neg he]
        by_cases hn : newDay = last + 1
        · rw [if_pos hn]
          exact ⟨le_max_right _ _, fun _ => le_trans (Nat.le_add_left 1 _) (le_max_right _ _)⟩
        · rw [if_neg hn]
          by_cases hg : last + 1 < newDay
          · rw [if_pos hg]
            have : 1 ≤ s.longest_streak := h2 (by rw [hl]; simp)
            exact ⟨this, fun _ => this⟩
          · rw [if_neg hg]; exact ⟨h1, h2⟩

theorem reachable_inv {s : StreakState} (h : ReachableState s) : StreakInv s := by
  induction h with
  | init => exact ⟨le_refl 0, by simp⟩
  | incremental newDay today _ ih => exact applyNewActivity_inv _ newDay today ih
  | recomputed days today =>
      refine ⟨compute_current_le_longest days today, fun hne => ?_⟩
      exact compute_longest_pos days today hne

/-- C2: `longest_streak >= current_streak` holds in every `StreakState`
the system produces — the zeroed initial state, every state the
incremental update (`applyNewActivity`) yields, and every state installed
by full recomputation (`compute`) — so both streak-updating operations
preserve the invariant. -/
theorem C2_longest_ge_current (s : StreakState) (h : ReachableState s) :
    s.current_streak ≤ s.longest_streak :=
  (reachable_inv h).1

theorem C2_witness :
    ReachableState ⟨0, 0, none⟩
    ∧ (StreakState.mk 0 0 none).current_streak
        ≤ (StreakState.mk 0 0 none).longest_streak :=
  ⟨ReachableState.init, C2_longest_ge_current ⟨0, 0, none⟩ ReachableState.init⟩

/-- C3: the grace-period rule of full recomputation.  `compute` returns the
trailing consecutive run length exactly when the last active day is `today`
or `today - 1`, and 0 otherwise (in particular when the run ends more than
one day before `today`); concretely, days `{Jan 1, Jan 2, Jan 3}` give
`current_streak = 3` for `today = Jan 4` and `current_streak = 0` for
`today = Jan 5`. -/
theorem C3_grace_period :
    (∀ (days : List Int) (today L : Int), days.getLast? = some L →
        (compute days today).current
          = if L = today ∨ L = today - 1 then trailingRun days else 0)
    ∧ compute [1, 2, 3] 4 = ⟨3, 3⟩
    ∧ compute [1, 2, 3] 5 = ⟨0, 3⟩ := by
  refine ⟨?_, by decide, by decide⟩
  intro days today L hL
  have hs := computeFold_spec days
  rcases hf : computeFold days with ⟨st, run, lg⟩
  rw [hf] at hs
  simp only at hs
  rw [← hs.1] at hL
  subst hL
  simp only [compute, hf]
  rw [hs.2]

theorem C3_witness :
    ([1, 2, 3] : List Int).getLast? = some 3
    ∧ (compute [1, 2, 3] 4).current
        = if (3 : Int) = 4 ∨ (3 : Int) = 4 - 1 then trailingRun [1, 2, 3] else 0 :=
  ⟨by decide, C3_grace_period.1 [1, 2, 3] 4 3 (by decide)⟩

/-! ## Day bucketing (`StreakCalendar.js`) -/

/-- An activity record as the calendar consumes it; `date` is the local
calendar day the timestamp falls on (`isSameDay` in the source compares
only the calendar day). -/
structure Activity where
  date : Int
  activity_type : String
deriving DecidableEq, Repr

/-- True when two timestamps denote the same local calendar day, as
computed by the source's `isSameDay(new Date(a.date), date)`.  Days are
modelled as day numbers. -/
def isSameDay (d1 d2 : Int) : Bool :=
  d1 == d2

/-- Predicate from `StreakCalendar.js:77-81` (`hasActivityOnDate`): some
activity falls on the given day. -/
def hasActivityOnDate (activities : List Activity) (d : Int) : Bool :=
  activities.any (fun a => isSameDay a.date d)

/-- The active days the calendar marks: the days of the rendered interval
that satisfy `hasActivityOnDate` (`StreakCalendar.js:172-186`). -/
def activeDays (activities : List Activity) (days : List Int) : List Int :=
  days.filter (hasActivityOnDate activities)

/-- C8: day bucketing collapses duplicates.  A day is active iff at least
one activity falls on it; over a calendar interval without repeated dates
each date appears at most once among the active days; and an extra activity
on an already-covered date leaves the active-day set unchanged. -/
theorem C8_day_bucketing :
    (∀ (activities : List Activity) (d : Int),
        hasActivityOnDate activities d = true ↔ ∃ a ∈ activities, a.date = d)
    ∧ (∀ (activities : List Activity) (days : List Int) (d : Int),
        days.Nodup → (activeDays activities days).count d ≤ 1)
    ∧ (∀ (a b : Activity) (activities : List Activity) (days : List Int),
        a.date = b.date →
          activeDays (a :: b :: activities) days = activeDays (b :: activities) days) := by
  refine ⟨?_, ?_, ?_⟩
  · intro activities d
    simp [hasActivityOnDate, isSameDay]
  · intro activities days d hnd
    exact List.nodup_iff_count_le_one.mp (hnd.filter _) d
  · intro a b activities days hab
    refine List.filter_congr ?_
    intro d _
    simp only [hasActivityOnDate, List.any_cons, hab, isSameDay]
    cases hbd : b.date == d <;> simp [hbd]

theorem C8_witness :
    ([1, 2] : List Int).Nodup
    ∧ (activeDays [Activity.mk 1 "gym", Activity.mk 1 "run"] [1, 2]).count 1 ≤ 1 :=
  ⟨by decide, C8_day_bucketing.2.1 [Activity.mk 1 "gym", Activity.mk 1 "run"] [1, 2] 1 (by decide)⟩

/-! ## Icon lookup (`StreakCalendar.js`, `Dashboard.js`) -/

/-- A JavaScript string-or-undefined value. -/
inductive JSStr
  | undefined
  | str (s : String)
deriving DecidableEq, Repr

/-- JS `a || b` for string values: `a` unless it is falsy (`undefined` or
the empty string). -/
def jsOrStr (a b : JSStr) : JSStr :=
  match a with
  | .undefined => b
  | .str s => if s = "" then b else .str s

/-- The `icons` table of `getActivityIcon` (`StreakCalendar.js:56-64`; the
copy in `Dashboard.js:43-51` has the same keys and the same default); an
unknown key reads as `undefined`. -/
def iconsLookup (t : String) : JSStr :=
  if t = "gym" then .str "🏋️‍♂️"
  else if t = "run" then .str "🏃‍♂️"
  else if t = "walk" then .str "🚶‍♂️"
  else if t = "yoga" then .str "🧘‍♂️"
  else .undefined

/-- Icon selection from `StreakCalendar.js:56-64` (`getActivityIcon`):
`icons[type] || '🏃‍♂️'`. -/
def getActivityIcon (t : String) : JSStr :=
  jsOrStr (iconsLookup t) (.str "🏃‍♂️")

/-- C9: `getActivityIcon` is total — it never evaluates to `undefined`, and
every activity type outside `{gym, run, walk, yoga}` yields the default
running icon. -/
theorem C9_getActivityIcon_total (t : String) :
    getActivityIcon t ≠ JSStr.undefined
    ∧ (t ≠ "gym" → t ≠ "run" → t ≠ "walk" → t ≠ "yoga" →
        getActivityIcon t = JSStr.str "🏃‍♂️") := by
  by_cases h1 : t = "gym"
  · subst h1
    exact ⟨by decide, fun h _ _ _ => absurd rfl h⟩
  by_cases h2 : t = "run"
  · subst h2
    exact ⟨by decide, fun _ h _ _ => absurd rfl h⟩
  by_cases h3 : t = "walk"
  · subst h3
    exact ⟨by decide, fun _ _ h _ => absurd rfl h⟩
  by_cases h4 : t = "yoga"
  · subst h4
    exact ⟨by decide, fun _ _ _ h => absurd rfl h⟩
  have hic : iconsLookup t = JSStr.undefined := by
    simp [iconsLookup, h1, h2, h3, h4]
  refine ⟨?_, fun _ _ _ _ => ?_⟩
  · simp [getActivityIcon, hic, jsOrStr]
  · simp [getActivityIcon, hic, jsOrStr]

theorem C9_witness :
    ("skateboarding" ≠ "gym" ∧ "skateboarding" ≠ "run"
        ∧ "skateboarding" ≠ "walk" ∧ "skateboarding" ≠ "yoga")
    ∧ getActivityIcon "skateboarding" = JSStr.str "🏃‍♂️" :=
  ⟨⟨by decide, by decide, by decide, by decide⟩,
    (C9_getActivityIcon_total "skateboarding").2 (by decide) (by decide)
      (by decide) (by decide)⟩

/-! ## Calorie estimate (`ActivityLogger.js`) -/

/-- A JavaScript arithmetic value: an integer or `NaN` (the result of
arithmetic on `undefined`). -/
inductive JSNum
  | nan
  | int (n : Int)
deriving DecidableEq, Repr

/-- The `caloriesPerMinute` table of `getEstimatedCalories`
(`ActivityLogger.js:66-71`); an unknown key reads as `undefined`. -/
def caloriesPerMinute (t : String) : Option Int :=
  if t = "gym" then some 8
  else if t = "run" then some 12
  else if t = "walk" then some 4
  else if t = "yoga" then some 3
  else none

/-- JS `caloriesPerMinute[type] * duration`: multiplication with
`undefined` yields `NaN`. -/
def jsMulRate (r : Option Int) (d : Int) : JSNum :=
  match r with
  | none => .nan
  | some n => .int (n * d)

/-- JS `x || 0`: `x` unless it is falsy (`NaN` or `0`). -/
def jsOrZero (x : JSNum) : JSNum :=
  match x with
  | .nan => .int 0
  | .int n => if n = 0 then .int 0 else .int n

/-- Calorie estimate from `ActivityLogger.js:65-74` (`getEstimatedCalories`):
`caloriesPerMinute[type] * duration || 0`. -/
def getEstimatedCalories (t : String) (duration : Int) : JSNum :=
  jsOrZero (jsMulRate (caloriesPerMinute t) duration)

/-- C10: for every non-negative duration, `getEstimatedCalories` returns
`rate * duration` for a known activity type when that product is nonzero,
returns 0 for an unknown type or a zero duration, never evaluates to `NaN`,
and the rates are gym 8, run 12, walk 4, yoga 3. -/
theorem C10_getEstimatedCalories_spec (t : String) (d : Nat) :
    getEstimatedCalories t d ≠ JSNum.nan
    ∧ (∀ r, caloriesPerMinute t = some r → r * (d : Int) ≠ 0 →
        getEstimatedCalories t d = JSNum.int (r * d))
    ∧ (caloriesPerMinute t = none → getEstimatedCalories t d = JSNum.int 0)
    ∧ (d = 0 → getEstimatedCalories t d = JSNum.int 0)
    ∧ caloriesPerMinute "gym" = some 8 ∧ caloriesPerMinute "run" = some 12
    ∧ caloriesPerMinute "walk" = some 4 ∧ caloriesPerMinute "yoga" = some 3 := by
  refine ⟨?_, ?_, ?_, ?_, by decide, by decide, by decide, by decide⟩
  · rcases hr : caloriesPerMinute t with _ | r
    · simp [getEstimatedCalories, jsMulRate, jsOrZero, hr]
    · simp only [getEstimatedCalories, jsMulRate, jsOrZero, hr]
      split_ifs <;> simp
  · intro r hr hnz
    simp [getEstimatedCalories, jsMulRate, jsOrZero, hr, hnz]
  · intro hr
    simp [getEstimatedCalories, jsMulRate, jsOrZero, hr]
  · intro hd
    subst hd
    rcases hr : caloriesPerMinute t with _ | r
    · simp [getEstimatedCalories, jsMulRate, jsOrZero, hr]
    · simp [getEstimatedCalories, jsMulRate, jsOrZero, hr]

theorem C10_witness :
    caloriesPerMinute "run" = some 12 ∧ (12 : Int) * (30 : Nat) ≠ 0
    ∧ getEstimatedCalories "run" (30 : Nat) = JSNum.int (12 * (30 : Nat)) :=
  ⟨by decide, by decide,
    (C10_getEstimatedCalories_spec "run" 30).2.1 12 (by decide) (by decide)⟩

end GetFit
